import Mathlib

/-!
Shallow embedding of the rational-number library (a C++ single-header
Ratio template over an integral type T).  The underlying integral type is
modelled as Int; C++ truncating division and remainder on signed integers
are Int.tdiv and Int.tmod.  The throwing two-argument constructor is
modelled with Except: a DivideByZero error or a value.
-/

namespace RationalSpec

/-- Models DivideByZeroException, the error thrown by the library. -/
inductive RatioError where
  | divideByZero
deriving DecidableEq

/-- The Ratio data: a numerator and a denominator over the integral type. -/
structure Ratio where
  numer : Int
  denom : Int
deriving DecidableEq

/-- Euclidean loop of the gcd function from the source, after the two
initial sign flips have been applied (so both arguments are the absolute
values, and the C++ remainder on them agrees with Nat remainder):
while b is nonzero, set a to a mod b, return b if a became zero,
else set b to b mod a; finally return a. -/
def gcdLoop (a b : Nat) : Nat :=
  if hb : b = 0 then a
  else
    let a2 := a % b
    if a2 = 0 then b
    else gcdLoop a2 (b % a2)
termination_by b
decreasing_by
  have hb0 : 0 < b := Nat.pos_of_ne_zero hb
  have h1 : a % b < b := Nat.mod_lt a hb0
  have h2 : b % a2 < a2 := Nat.mod_lt b (Nat.pos_of_ne_zero (by assumption))
  exact Nat.lt_trans h2 h1

/-- The gcd free function of the source: flip the signs of negative
arguments, then run the Euclidean loop. -/
def cgcd (a b : Int) : Int :=
  Int.ofNat (gcdLoop a.natAbs b.natAbs)

/-- Member function reduce: divide numerator and denominator by their gcd
(the C++ division is truncating, but the divisor is the gcd, which divides
both exactly), then negate both parts when the denominator is negative. -/
def Ratio.reduce (r : Ratio) : Ratio :=
  let g := cgcd r.numer r.denom
  let n := r.numer.tdiv g
  let d := r.denom.tdiv g
  if d < 0 then ⟨-n, -d⟩ else ⟨n, d⟩

/-- The two-argument constructor: throws DivideByZeroException when the
denominator is zero, otherwise builds the pair and reduces it. -/
def ratioMk (numer denom : Int) : Except RatioError Ratio :=
  if denom = 0 then Except.error RatioError.divideByZero
  else Except.ok (Ratio.reduce ⟨numer, denom⟩)

/-- The single-argument constructor: u over 1, built without reduction. -/
def ratioOfInt (u : Int) : Ratio := ⟨u, 1⟩

/-- Static factory zero: the pair 0 over 1, built without reduction. -/
def ratioZero : Ratio := ⟨0, 1⟩

/-- Static factory one: the pair 1 over 1, built without reduction. -/
def ratioOne : Ratio := ⟨1, 1⟩

/-- Static factory pi: the pair 6283 over 2000, built without reduction. -/
def ratioPi : Ratio := ⟨6283, 2000⟩

/-- Binary operator plus: cross-multiplied sum passed to the reducing
constructor. -/
def ratAdd (l r : Ratio) : Except RatioError Ratio :=
  ratioMk (l.numer * r.denom + l.denom * r.numer) (l.denom * r.denom)

/-- Binary operator minus: cross-multiplied difference passed to the
reducing constructor. -/
def ratSub (l r : Ratio) : Except RatioError Ratio :=
  ratioMk (l.numer * r.denom - l.denom * r.numer) (l.denom * r.denom)

/-- Binary operator percent: truncating remainder of the cross products
over the product of the denominators, passed to the reducing constructor. -/
def ratMod (l r : Ratio) : Except RatioError Ratio :=
  ratioMk (Int.tmod (l.numer * r.denom) (l.denom * r.numer)) (l.denom * r.denom)

/-- Binary operator times: product of numerators over product of
denominators, passed to the reducing constructor. -/
def ratMul (l r : Ratio) : Except RatioError Ratio :=
  ratioMk (l.numer * r.numer) (l.denom * r.denom)

/-- Binary operator divide: defined through make_ratio, which calls the
reducing constructor on the cross products. -/
def ratDiv (l r : Ratio) : Except RatioError Ratio :=
  ratioMk (l.numer * r.denom) (l.denom * r.numer)

/-- Unary minus: negate the numerator, keep the denominator, no reduction. -/
def ratNeg (r : Ratio) : Ratio := ⟨-r.numer, r.denom⟩

/-- Operator ==, exactly as written in the source: it multiplies each
operand by its own denominator rather than cross-multiplying. -/
def ratEq (l r : Ratio) : Bool :=
  l.numer * l.denom == r.numer * r.denom

/-- Operator >, exactly as written in the source: it compares the two
products numerator times own denominator. -/
def ratGt (l r : Ratio) : Bool :=
  decide (l.numer * l.denom > r.numer * r.denom)

/-- Operator <, defined in the source as the swapped operator >. -/
def ratLt (l r : Ratio) : Bool := ratGt r l

/-- Operator <=, defined in the source as the negation of operator >. -/
def ratLe (l r : Ratio) : Bool := !(ratGt l r)

/-- Operator >=, defined in the source as the negation of operator <. -/
def ratGe (l r : Ratio) : Bool := !(ratLt l r)

/-- Member function trunc: truncating integer quotient over denominator 1,
via the single-argument constructor. -/
def Ratio.trunc (r : Ratio) : Ratio :=
  ratioOfInt (r.numer.tdiv r.denom)

/-- Member function fract: truncating remainder over the unchanged
denominator, built with the no-reduce tag. -/
def Ratio.fract (r : Ratio) : Ratio :=
  ⟨Int.tmod r.numer r.denom, r.denom⟩

/-- Member function floor, as in the source: branch on comparison with the
zero ratio, negative case uses the shifted quotient. -/
def Ratio.floor (r : Ratio) : Ratio :=
  if ratLt r (ratioOfInt 0) then
    ratioOfInt ((r.numer - r.denom + 1).tdiv r.denom)
  else
    ratioOfInt (r.numer.tdiv r.denom)

/-- Member function ceil, as in the source: branch on comparison with the
zero ratio, non-negative case uses the shifted quotient. -/
def Ratio.ceil (r : Ratio) : Ratio :=
  if ratLt r (ratioOfInt 0) then
    ratioOfInt (r.numer.tdiv r.denom)
  else
    ratioOfInt ((r.numer + r.denom - 1).tdiv r.denom)

/-- Member function round, as in the source: take the fractional part,
flip its sign if negative (through the subtraction operator, hence through
the reducing constructor, whose error would propagate), test whether it is
at least one half with the parity-aware comparison, and step trunc away
from zero on a hit. -/
def Ratio.round (r : Ratio) : Except RatioError Ratio :=
  match
    (if ratLt r.fract (ratioOfInt 0) then ratSub (ratioOfInt 0) r.fract
     else Except.ok r.fract) with
  | Except.error e => Except.error e
  | Except.ok fractional =>
    let half_or_larger :=
      if Int.tmod fractional.denom 2 = 0 then
        decide (fractional.numer ≥ fractional.denom.tdiv 2)
      else
        decide (fractional.numer ≥ fractional.denom.tdiv 2 + 1)
    if half_or_larger then
      if ratGt r (ratioOfInt 0) then ratAdd r.trunc (ratioOfInt 1)
      else ratSub r.trunc (ratioOfInt 1)
    else
      Except.ok r.trunc

/-- The exact rational value represented by a Ratio. -/
def Ratio.val (r : Ratio) : ℚ :=
  (r.numer : ℚ) / (r.denom : ℚ)

/-- The documented class invariant: the denominator is strictly positive
and the numerator and denominator are coprime. -/
def Ratio.Invariant (r : Ratio) : Prop :=
  0 < r.denom ∧ Int.gcd r.numer r.denom = 1

instance (r : Ratio) : Decidable r.Invariant :=
  inferInstanceAs (Decidable (0 < r.denom ∧ Int.gcd r.numer r.denom = 1))

end RationalSpec

namespace RationalSpec

theorem gcdLoop_eq_gcd (a b : Nat) : gcdLoop a b = Nat.gcd a b := by
  induction b using Nat.strong_induction_on generalizing a with
  | _ b ih =>
    rw [gcdLoop]
    by_cases hb : b = 0
    · subst hb
      simp
    · rw [dif_neg hb]
      simp only []
      have key : Nat.gcd a b = Nat.gcd (a % b) b :=
        (Nat.gcd_comm a b).trans (Nat.gcd_rec b a)
      by_cases h2 : a % b = 0
      · rw [if_pos h2, key, h2, Nat.gcd_zero_left]
      · rw [if_neg h2]
        have hblt : a % b < b := Nat.mod_lt a (Nat.pos_of_ne_zero hb)
        have hlt : b % (a % b) < b :=
          Nat.lt_trans (Nat.mod_lt b (Nat.pos_of_ne_zero h2)) hblt
        rw [ih (b % (a % b)) hlt (a % b)]
        rw [key, Nat.gcd_rec (a % b) b, Nat.gcd_comm]

theorem cgcd_eq_gcd (a b : Int) : cgcd a b = (Int.gcd a b : Int) := by
  unfold cgcd
  rw [gcdLoop_eq_gcd]
  rfl

theorem gcd_sub_mul (a b k : Int) : Int.gcd (a - b * k) b = Int.gcd a b := by
  apply Nat.dvd_antisymm
  · have h2 : (Int.gcd (a - b * k) b : Int) ∣ b := Int.gcd_dvd_right
    have h1 : (Int.gcd (a - b * k) b : Int) ∣ a := by
      have h3 : (Int.gcd (a - b * k) b : Int) ∣ (a - b * k) + b * k :=
        dvd_add Int.gcd_dvd_left (Dvd.dvd.mul_right h2 k)
      simpa using h3
    exact Int.natCast_dvd_natCast.mp (Int.dvd_gcd h1 h2)
  · have h1 : (Int.gcd a b : Int) ∣ a - b * k :=
      dvd_sub Int.gcd_dvd_left (Dvd.dvd.mul_right Int.gcd_dvd_right k)
    exact Int.natCast_dvd_natCast.mp (Int.dvd_gcd h1 Int.gcd_dvd_right)

theorem gcd_tmod_left (a b : Int) : Int.gcd (Int.tmod a b) b = Int.gcd a b := by
  rw [Int.tmod_def]
  exact gcd_sub_mul a b (a.tdiv b)

theorem gcd_neg_left (a b : Int) : Int.gcd (-a) b = Int.gcd a b := by
  simp [Int.gcd]

theorem gcd_neg_neg (a b : Int) : Int.gcd (-a) (-b) = Int.gcd a b := by
  simp [Int.gcd]

/-- What reduce computes when the denominator is nonzero: an
invariant-satisfying pair that represents the same fraction, the original
pair being a common nonzero multiple of the result. -/
theorem reduce_spec (n d : Int) (hd : d ≠ 0) :
    ∃ s : Int, s ≠ 0 ∧ n = (Ratio.reduce ⟨n, d⟩).numer * s ∧
      d = (Ratio.reduce ⟨n, d⟩).denom * s ∧ (Ratio.reduce ⟨n, d⟩).Invariant := by
  have hg0 : 0 < Int.gcd n d := Int.gcd_pos_of_ne_zero_right n hd
  have hgpos : (0 : Int) < (Int.gcd n d : Int) := by exact_mod_cast hg0
  have hdl : (Int.gcd n d : Int) ∣ n := Int.gcd_dvd_left
  have hdr : (Int.gcd n d : Int) ∣ d := Int.gcd_dvd_right
  have hred : Ratio.reduce ⟨n, d⟩ =
      if d / (Int.gcd n d : Int) < 0 then
        ⟨-(n / (Int.gcd n d : Int)), -(d / (Int.gcd n d : Int))⟩
      else
        ⟨n / (Int.gcd n d : Int), d / (Int.gcd n d : Int)⟩ := by
    show Ratio.reduce ⟨n, d⟩ = _
    unfold Ratio.reduce
    simp only [cgcd_eq_gcd]
    rw [Int.tdiv_eq_ediv_of_dvd hdl, Int.tdiv_eq_ediv_of_dvd hdr]
  have hn1 : n / (Int.gcd n d : Int) * (Int.gcd n d : Int) = n := Int.ediv_mul_cancel hdl
  have hd1 : d / (Int.gcd n d : Int) * (Int.gcd n d : Int) = d := Int.ediv_mul_cancel hdr
  have hd10 : d / (Int.gcd n d : Int) ≠ 0 := by
    intro h0
    apply hd
    rw [← hd1, h0, zero_mul]
  have hcop : Int.gcd (n / (Int.gcd n d : Int)) (d / (Int.gcd n d : Int)) = 1 :=
    Int.gcd_div_gcd_div_gcd hg0
  by_cases hneg : d / (Int.gcd n d : Int) < 0
  · rw [hred, if_pos hneg]
    refine ⟨-(Int.gcd n d : Int), by omega, ?_, ?_, ?_, ?_⟩
    · show n = -(n / (Int.gcd n d : Int)) * -(Int.gcd n d : Int)
      rw [neg_mul_neg, hn1]
    · show d = -(d / (Int.gcd n d : Int)) * -(Int.gcd n d : Int)
      rw [neg_mul_neg, hd1]
    · show (0 : Int) < -(d / (Int.gcd n d : Int))
      omega
    · show Int.gcd (-(n / (Int.gcd n d : Int))) (-(d / (Int.gcd n d : Int))) = 1
      rw [gcd_neg_neg, hcop]
  · rw [hred, if_neg hneg]
    refine ⟨(Int.gcd n d : Int), by omega, ?_, ?_, ?_, ?_⟩
    · exact hn1.symm
    · exact hd1.symm
    · show (0 : Int) < d / (Int.gcd n d : Int)
      omega
    · exact hcop

/-- On an invariant-satisfying value, reduce is the identity. -/
theorem reduce_invariant_id (r : Ratio) (h : r.Invariant) : r.reduce = r := by
  obtain ⟨hpos, hcop⟩ := h
  have h2 : (Int.gcd r.numer r.denom : Int) = 1 := by rw [hcop]; rfl
  unfold Ratio.reduce
  simp only [cgcd_eq_gcd, h2, Int.tdiv_one]
  rw [if_neg (by omega)]

theorem ratioMk_ok (n d : Int) (hd : d ≠ 0) :
    ratioMk n d = Except.ok (Ratio.reduce ⟨n, d⟩) := by
  simp [ratioMk, hd]

/-- The packaged constructor specification: on a nonzero denominator the
constructor produces an invariant-satisfying value of the right exact
rational value, and the input pair is a nonzero integer multiple of it. -/
theorem ratioMk_spec (n d : Int) (hd : d ≠ 0) :
    ∃ x, ratioMk n d = Except.ok x ∧ x.Invariant ∧
      x.val = (n : ℚ) / (d : ℚ) ∧
      ∃ s : Int, s ≠ 0 ∧ n = x.numer * s ∧ d = x.denom * s := by
  obtain ⟨s, hs, hn, hdd, hinv⟩ := reduce_spec n d hd
  have hmk := ratioMk_ok n d hd
  set x := Ratio.reduce ⟨n, d⟩ with hx
  refine ⟨x, hmk, hinv, ?_, s, hs, hn, hdd⟩
  unfold Ratio.val
  rw [hn, hdd]
  push_cast
  rw [mul_div_mul_right _ _ (by exact_mod_cast hs)]

theorem invariant_ofInt (u : Int) : (ratioOfInt u).Invariant :=
  ⟨Int.one_pos, Int.gcd_one⟩

/-- C10: for a value with positive denominator, the comparison operators
against the zero ratio agree with the sign of the numerator and with the
sign of the exact rational value, even though the general comparison is
not a cross-multiplication. -/
theorem c10_zero_comparison_matches_sign (r : Ratio) (h : 0 < r.denom) :
    (ratGt r (ratioOfInt 0) = true ↔ 0 < r.numer) ∧
    (ratLt r (ratioOfInt 0) = true ↔ r.numer < 0) ∧
    (ratGt r (ratioOfInt 0) = true ↔ 0 < r.val) ∧
    (ratLt r (ratioOfInt 0) = true ↔ r.val < 0) := by
  have hbq : (0 : ℚ) < (r.denom : ℚ) := by exact_mod_cast h
  have h1 : ratGt r (ratioOfInt 0) = true ↔ 0 < r.numer := by
    simp only [ratGt, ratioOfInt, decide_eq_true_eq, gt_iff_lt, zero_mul]
    constructor
    · intro hgt
      nlinarith
    · intro hn
      exact mul_pos hn h
  have h2 : ratLt r (ratioOfInt 0) = true ↔ r.numer < 0 := by
    simp only [ratLt, ratGt, ratioOfInt, decide_eq_true_eq, gt_iff_lt, zero_mul]
    constructor
    · intro hlt
      nlinarith
    · intro hn
      exact mul_neg_of_neg_of_pos hn h
  refine ⟨h1, h2, ?_, ?_⟩
  · rw [h1]
    unfold Ratio.val
    rw [lt_div_iff hbq, zero_mul]
    exact ⟨fun hn => by exact_mod_cast hn, fun hn => by exact_mod_cast hn⟩
  · rw [h2]
    unfold Ratio.val
    rw [div_lt_iff hbq, zero_mul]
    exact ⟨fun hn => by exact_mod_cast hn, fun hn => by exact_mod_cast hn⟩

theorem c10_witness :
    (0 : Int) < (⟨3, 4⟩ : Ratio).denom ∧
    ((ratGt ⟨3, 4⟩ (ratioOfInt 0) = true ↔ 0 < (⟨3, 4⟩ : Ratio).numer) ∧
     (ratLt ⟨3, 4⟩ (ratioOfInt 0) = true ↔ (⟨3, 4⟩ : Ratio).numer < 0) ∧
     (ratGt ⟨3, 4⟩ (ratioOfInt 0) = true ↔ 0 < (⟨3, 4⟩ : Ratio).val) ∧
     (ratLt ⟨3, 4⟩ (ratioOfInt 0) = true ↔ (⟨3, 4⟩ : Ratio).val < 0)) :=
  ⟨by decide, c10_zero_comparison_matches_sign ⟨3, 4⟩ (by decide)⟩

/-- C1: the comparison operators do not implement the cross-multiply
comparison. On the invariant-satisfying pairs one half and two, operator ==
answers true although the cross products differ and the exact values
differ; on one third and one half, operator > answers true although the
cross-multiply comparison is false and the exact value is smaller. -/
theorem c1_comparison_is_not_cross_multiply :
    Ratio.Invariant ⟨1, 2⟩ ∧ Ratio.Invariant ⟨2, 1⟩ ∧ Ratio.Invariant ⟨1, 3⟩ ∧
    ratEq ⟨1, 2⟩ ⟨2, 1⟩ = true ∧ (1 * 1 : Int) ≠ 2 * 2 ∧
    Ratio.val ⟨1, 2⟩ ≠ Ratio.val ⟨2, 1⟩ ∧
    ratGt ⟨1, 3⟩ ⟨1, 2⟩ = true ∧ ¬ ((1 * 2 : Int) > 3 * 1) ∧
    Ratio.val ⟨1, 3⟩ < Ratio.val ⟨1, 2⟩ := by
  refine ⟨by decide, by decide, by decide, by decide, by decide, ?_, by decide, by decide, ?_⟩
  · unfold Ratio.val
    norm_num
  · unfold Ratio.val
    norm_num

/-- C3: the two-argument constructor fails with DivideByZero exactly on a
zero denominator and produces a value otherwise; division by an
invariant-satisfying ratio fails with DivideByZero exactly when that ratio
is zero-valued, that is when its numerator is zero. -/
theorem c3_divide_by_zero :
    (∀ n d : Int, (ratioMk n d = Except.error RatioError.divideByZero ↔ d = 0)) ∧
    (∀ n d : Int, d ≠ 0 → ∃ x, ratioMk n d = Except.ok x) ∧
    (∀ l r : Ratio, l.Invariant → r.Invariant →
      ((ratDiv l r = Except.error RatioError.divideByZero ↔ r.numer = 0) ∧
       (r.numer ≠ 0 → ∃ x, ratDiv l r = Except.ok x))) := by
  have hmk : ∀ n d : Int, (ratioMk n d = Except.error RatioError.divideByZero ↔ d = 0) := by
    intro n d
    by_cases hd : d = 0
    · simp [ratioMk, hd]
    · simp [ratioMk, hd]
  refine ⟨hmk, fun n d hd => ⟨_, ratioMk_ok n d hd⟩, ?_⟩
  intro l r hl hr
  have hld : l.denom ≠ 0 := by
    have := hl.1
    omega
  constructor
  · unfold ratDiv
    rw [hmk]
    constructor
    · intro h0
      rcases mul_eq_zero.mp h0 with h | h
      · exact absurd h hld
      · exact h
    · intro h0
      rw [h0, mul_zero]
  · intro hr0
    exact ⟨_, ratioMk_ok _ _ (mul_ne_zero hld hr0)⟩

theorem c3_witness :
    (2 : Int) ≠ 0 ∧ (∃ x, ratioMk 3 2 = Except.ok x) ∧
    Ratio.Invariant ⟨1, 2⟩ ∧ Ratio.Invariant ⟨0, 1⟩ ∧
    (ratDiv ⟨1, 2⟩ ⟨0, 1⟩ = Except.error RatioError.divideByZero ↔ (⟨0, 1⟩ : Ratio).numer = 0) :=
  ⟨by decide, c3_divide_by_zero.2.1 3 2 (by decide), by decide, by decide,
    (c3_divide_by_zero.2.2 ⟨1, 2⟩ ⟨0, 1⟩ (by decide) (by decide)).1⟩

theorem tdiv_neg_eq (a b : Int) (hb : 0 < b) (ha : a < 0) : a.tdiv b = -((-a) / b) := by
  have h := Int.neg_tdiv (-a) b
  rw [neg_neg] at h
  rw [h, Int.tdiv_eq_ediv (by omega : (0 : Int) ≤ -a) (by omega : (0 : Int) ≤ b)]

theorem ediv_bounds (a b : Int) (hb : 0 < b) : b * (a / b) ≤ a ∧ a < b * (a / b) + b := by
  have h1 := Int.ediv_add_emod a b
  have h2 := Int.emod_nonneg a (by omega : b ≠ 0)
  have h3 := Int.emod_lt_of_pos a hb
  omega

theorem tmod_neg_left (a b : Int) : Int.tmod (-a) b = -(Int.tmod a b) := by
  simp [Int.tmod_def, Int.neg_tdiv]
  ring

theorem tmod_bounds (a b : Int) (hb : 0 < b) : -b < Int.tmod a b ∧ Int.tmod a b < b := by
  rcases le_or_lt 0 a with ha | ha
  · have h1 := Int.tmod_nonneg b ha
    have h2 := Int.tmod_lt_of_pos a hb
    omega
  · have h1 := Int.tmod_nonneg b (by omega : (0 : Int) ≤ -a)
    have h2 := Int.tmod_lt_of_pos (-a) hb
    have h3 := tmod_neg_left a b
    omega

theorem tmod_nonpos (a b : Int) (ha : a ≤ 0) : Int.tmod a b ≤ 0 := by
  have h1 := Int.tmod_nonneg b (by omega : (0 : Int) ≤ -a)
  have h2 := tmod_neg_left (-a) b
  rw [neg_neg] at h2
  omega

theorem ratGt_zero_iff (r : Ratio) (h : 0 < r.denom) :
    ratGt r (ratioOfInt 0) = true ↔ 0 < r.numer := by
  simp only [ratGt, ratioOfInt, decide_eq_true_eq, gt_iff_lt, zero_mul]
  constructor
  · intro hgt
    nlinarith
  · intro hn
    exact mul_pos hn h

theorem ratLt_zero_iff (r : Ratio) (h : 0 < r.denom) :
    ratLt r (ratioOfInt 0) = true ↔ r.numer < 0 := by
  simp only [ratLt, ratGt, ratioOfInt, decide_eq_true_eq, gt_iff_lt, zero_mul]
  constructor
  · intro hlt
    nlinarith
  · intro hn
    exact mul_neg_of_neg_of_pos hn h

theorem val_bracket_lower (r : Ratio) (q : Int) (hb : 0 < r.denom)
    (h1 : q * r.denom ≤ r.numer) (h2 : r.numer < (q + 1) * r.denom) :
    (q : ℚ) ≤ r.val ∧ r.val < (q : ℚ) + 1 := by
  have hbq : (0 : ℚ) < (r.denom : ℚ) := by exact_mod_cast hb
  unfold Ratio.val
  constructor
  · rw [le_div_iff₀ hbq]
    exact_mod_cast h1
  · rw [div_lt_iff₀ hbq]
    have hcast : ((q : ℚ) + 1) * (r.denom : ℚ) = (((q + 1) * r.denom : Int) : ℚ) := by
      push_cast
      ring
    rw [hcast]
    exact_mod_cast h2

theorem val_bracket_upper (r : Ratio) (q : Int) (hb : 0 < r.denom)
    (h1 : (q - 1) * r.denom < r.numer) (h2 : r.numer ≤ q * r.denom) :
    (q : ℚ) - 1 < r.val ∧ r.val ≤ (q : ℚ) := by
  have hbq : (0 : ℚ) < (r.denom : ℚ) := by exact_mod_cast hb
  unfold Ratio.val
  constructor
  · rw [lt_div_iff₀ hbq]
    have hcast : ((q : ℚ) - 1) * (r.denom : ℚ) = (((q - 1) * r.denom : Int) : ℚ) := by
      push_cast
      ring
    rw [hcast]
    exact_mod_cast h1
  · rw [div_le_iff₀ hbq]
    exact_mod_cast h2

/-- C6: floor agrees with trunc on non-negative values and uses the
shifted quotient on negative ones, ceil the other way around, and the two
results bracket the exact value from below and from above respectively;
on minus seven halves floor gives minus four and ceil gives minus three. -/
theorem c6_floor_ceil (r : Ratio) (h : r.Invariant) :
    (0 ≤ r.numer → r.floor = r.trunc) ∧
    (r.numer < 0 → r.floor = ratioOfInt ((r.numer - r.denom + 1).tdiv r.denom)) ∧
    r.floor.denom = 1 ∧
    ((r.floor.numer : ℚ) ≤ r.val ∧ r.val < (r.floor.numer : ℚ) + 1) ∧
    (r.numer < 0 → r.ceil = r.trunc) ∧
    (0 ≤ r.numer → r.ceil = ratioOfInt ((r.numer + r.denom - 1).tdiv r.denom)) ∧
    r.ceil.denom = 1 ∧
    ((r.ceil.numer : ℚ) - 1 < r.val ∧ r.val ≤ (r.ceil.numer : ℚ)) ∧
    Ratio.floor ⟨-7, 2⟩ = ratioOfInt (-4) ∧
    Ratio.ceil ⟨-7, 2⟩ = ratioOfInt (-3) := by
  have hb : 0 < r.denom := h.1
  have hlt := ratLt_zero_iff r hb
  have hfloor_nonneg : 0 ≤ r.numer → r.floor = r.trunc := by
    intro ha
    unfold Ratio.floor Ratio.trunc
    rw [if_neg (by rw [hlt]; omega)]
  have hfloor_neg : r.numer < 0 →
      r.floor = ratioOfInt ((r.numer - r.denom + 1).tdiv r.denom) := by
    intro ha
    unfold Ratio.floor
    rw [if_pos (hlt.mpr ha)]
  have hceil_neg : r.numer < 0 → r.ceil = r.trunc := by
    intro ha
    unfold Ratio.ceil Ratio.trunc
    rw [if_pos (hlt.mpr ha)]
  have hceil_nonneg : 0 ≤ r.numer →
      r.ceil = ratioOfInt ((r.numer + r.denom - 1).tdiv r.denom) := by
    intro ha
    unfold Ratio.ceil
    rw [if_neg (by rw [hlt]; omega)]
  have hfd : r.floor.denom = 1 := by
    unfold Ratio.floor
    split <;> rfl
  have hcd : r.ceil.denom = 1 := by
    unfold Ratio.ceil
    split <;> rfl
  have hbrFloor : r.floor.numer * r.denom ≤ r.numer ∧
      r.numer < (r.floor.numer + 1) * r.denom := by
    rcases le_or_lt 0 r.numer with ha | ha
    · have he : r.floor.numer = r.numer / r.denom := by
        rw [hfloor_nonneg ha]
        show r.numer.tdiv r.denom = _
        exact Int.tdiv_eq_ediv ha (by omega)
      obtain ⟨h1, h2⟩ := ediv_bounds r.numer r.denom hb
      rw [he]
      constructor
      · linarith
      · linarith
    · have he : r.floor.numer = -((-(r.numer - r.denom + 1)) / r.denom) := by
        rw [hfloor_neg ha]
        show (r.numer - r.denom + 1).tdiv r.denom = _
        exact tdiv_neg_eq _ _ hb (by omega)
      obtain ⟨h1, h2⟩ := ediv_bounds (-(r.numer - r.denom + 1)) r.denom hb
      have h2a := Int.lt_iff_add_one_le.mp h2
      rw [he]
      constructor
      · linarith
      · linarith
  have hbrCeil : (r.ceil.numer - 1) * r.denom < r.numer ∧
      r.numer ≤ r.ceil.numer * r.denom := by
    rcases le_or_lt 0 r.numer with ha | ha
    · have he : r.ceil.numer = (r.numer + r.denom - 1) / r.denom := by
        rw [hceil_nonneg ha]
        show (r.numer + r.denom - 1).tdiv r.denom = _
        exact Int.tdiv_eq_ediv (by omega) (by omega)
      obtain ⟨h1, h2⟩ := ediv_bounds (r.numer + r.denom - 1) r.denom hb
      have h2a := Int.lt_iff_add_one_le.mp h2
      rw [he]
      constructor
      · linarith
      · linarith
    · have he : r.ceil.numer = -((-r.numer) / r.denom) := by
        rw [hceil_neg ha]
        show r.numer.tdiv r.denom = _
        exact tdiv_neg_eq _ _ hb ha
      obtain ⟨h1, h2⟩ := ediv_bounds (-r.numer) r.denom hb
      rw [he]
      constructor
      · linarith
      · linarith
  refine ⟨hfloor_nonneg, hfloor_neg, hfd, ?_, hceil_neg, hceil_nonneg, hcd, ?_,
    by decide, by decide⟩
  · exact val_bracket_lower r r.floor.numer hb hbrFloor.1 hbrFloor.2
  · exact val_bracket_upper r r.ceil.numer hb hbrCeil.1 hbrCeil.2

theorem c6_witness :
    Ratio.Invariant ⟨-7, 2⟩ ∧
    ((-7 : Int) < 0 → Ratio.floor ⟨-7, 2⟩ =
      ratioOfInt (((-7 : Int) - 2 + 1).tdiv 2)) :=
  ⟨by decide, (c6_floor_ceil ⟨-7, 2⟩ (by decide)).2.1⟩

theorem fract_invariant (r : Ratio) (h : r.Invariant) : r.fract.Invariant := by
  refine ⟨h.1, ?_⟩
  show Int.gcd (Int.tmod r.numer r.denom) r.denom = 1
  rw [gcd_tmod_left]
  exact h.2

theorem trunc_val (r : Ratio) : r.trunc.val = (r.numer.tdiv r.denom : ℚ) := by
  unfold Ratio.val Ratio.trunc ratioOfInt
  norm_num

theorem fract_val (r : Ratio) :
    r.fract.val = (Int.tmod r.numer r.denom : ℚ) / (r.denom : ℚ) := rfl

/-- C9: trunc plus fract recovers the exact value, fract keeps the
denominator, trunc is the truncating integer quotient over denominator 1,
and the fractional part is proper and carries the sign of the value. -/
theorem c9_trunc_fract_decomposition (r : Ratio) (h : r.Invariant) :
    r.trunc.val + r.fract.val = r.val ∧
    r.fract.denom = r.denom ∧
    r.trunc.denom = 1 ∧
    r.trunc.numer = r.numer.tdiv r.denom ∧
    |r.fract.val| < 1 ∧
    (0 ≤ r.val → 0 ≤ r.fract.val) ∧
    (r.val ≤ 0 → r.fract.val ≤ 0) := by
  have hb : 0 < r.denom := h.1
  have hbq : (0 : ℚ) < (r.denom : ℚ) := by exact_mod_cast hb
  have hid := Int.tdiv_add_tmod r.numer r.denom
  have hidq : (r.denom : ℚ) * (r.numer.tdiv r.denom : ℚ) +
      (Int.tmod r.numer r.denom : ℚ) = (r.numer : ℚ) := by
    exact_mod_cast hid
  have hm := tmod_bounds r.numer r.denom hb
  refine ⟨?_, rfl, rfl, rfl, ?_, ?_, ?_⟩
  · rw [trunc_val, fract_val]
    unfold Ratio.val
    field_simp
    linarith [hidq]
  · rw [fract_val, abs_div, abs_of_pos hbq, div_lt_one hbq, abs_lt]
    constructor
    · exact_mod_cast hm.1
    · exact_mod_cast hm.2
  · intro hv
    have ha : 0 ≤ r.numer := by
      rw [Ratio.val, le_div_iff₀ hbq, zero_mul] at hv
      exact_mod_cast hv
    rw [fract_val]
    exact div_nonneg (by exact_mod_cast Int.tmod_nonneg r.denom ha) hbq.le
  · intro hv
    have ha : r.numer ≤ 0 := by
      rw [Ratio.val, div_le_iff₀ hbq, zero_mul] at hv
      exact_mod_cast hv
    rw [fract_val]
    apply div_nonpos_of_nonpos_of_nonneg _ hbq.le
    exact_mod_cast tmod_nonpos r.numer r.denom ha

theorem c9_witness :
    Ratio.Invariant ⟨-7, 2⟩ ∧
    ((Ratio.trunc ⟨-7, 2⟩).val + (Ratio.fract ⟨-7, 2⟩).val = Ratio.val ⟨-7, 2⟩ ∧
     (Ratio.fract ⟨-7, 2⟩).denom = (⟨-7, 2⟩ : Ratio).denom ∧
     (Ratio.trunc ⟨-7, 2⟩).denom = 1 ∧
     (Ratio.trunc ⟨-7, 2⟩).numer = ((-7 : Int)).tdiv 2 ∧
     |(Ratio.fract ⟨-7, 2⟩).val| < 1 ∧
     (0 ≤ Ratio.val ⟨-7, 2⟩ → 0 ≤ (Ratio.fract ⟨-7, 2⟩).val) ∧
     (Ratio.val ⟨-7, 2⟩ ≤ 0 → (Ratio.fract ⟨-7, 2⟩).val ≤ 0)) :=
  ⟨by decide, c9_trunc_fract_decomposition ⟨-7, 2⟩ (by decide)⟩

theorem mk_ok_invariant (n d : Int) (x : Ratio)
    (hx : ratioMk n d = Except.ok x) : x.Invariant := by
  by_cases hd : d = 0
  · simp [ratioMk, hd] at hx
  · rw [ratioMk_ok n d hd] at hx
    obtain ⟨s, _, _, _, hinv⟩ := reduce_spec n d hd
    cases hx
    exact hinv

theorem val_sub_trunc (r : Ratio) (hb : 0 < r.denom) :
    r.val - r.trunc.val = (Int.tmod r.numer r.denom : ℚ) / (r.denom : ℚ) := by
  have hbq : (0 : ℚ) < (r.denom : ℚ) := by exact_mod_cast hb
  have hidq : (r.denom : ℚ) * (r.numer.tdiv r.denom : ℚ) +
      (Int.tmod r.numer r.denom : ℚ) = (r.numer : ℚ) := by
    exact_mod_cast Int.tdiv_add_tmod r.numer r.denom
  rw [trunc_val]
  unfold Ratio.val
  field_simp
  linarith [hidq]

theorem ratSub_zero_eval (m b : Int) (hb : 0 < b) (hg : Int.gcd m b = 1) :
    ratSub (ratioOfInt 0) ⟨m, b⟩ = Except.ok ⟨-m, b⟩ := by
  show ratioMk (0 * b - 1 * m) (1 * b) = _
  rw [show (0 * b - 1 * m : Int) = -m by ring, show (1 * b : Int) = b by ring]
  rw [ratioMk_ok _ _ (by omega)]
  rw [reduce_invariant_id ⟨-m, b⟩ ⟨hb, (gcd_neg_left m b).trans hg⟩]

theorem ratAdd_int_one (q : Int) :
    ratAdd (ratioOfInt q) (ratioOfInt 1) = Except.ok (ratioOfInt (q + 1)) := by
  show ratioMk (q * 1 + 1 * 1) (1 * 1) = _
  rw [show (q * 1 + 1 * 1 : Int) = q + 1 by ring, show (1 * 1 : Int) = 1 by ring]
  rw [ratioMk_ok _ _ one_ne_zero]
  exact congrArg Except.ok (reduce_invariant_id ⟨q + 1, 1⟩ ⟨Int.one_pos, Int.gcd_one⟩)

theorem ratSub_int_one (q : Int) :
    ratSub (ratioOfInt q) (ratioOfInt 1) = Except.ok (ratioOfInt (q - 1)) := by
  show ratioMk (q * 1 - 1 * 1) (1 * 1) = _
  rw [show (q * 1 - 1 * 1 : Int) = q - 1 by ring, show (1 * 1 : Int) = 1 by ring]
  rw [ratioMk_ok _ _ one_ne_zero]
  exact congrArg Except.ok (reduce_invariant_id ⟨q - 1, 1⟩ ⟨Int.one_pos, Int.gcd_one⟩)

/-- What round computes on an invariant-satisfying value: trunc stepped
one away from zero when twice the absolute fractional remainder reaches
the denominator, plain trunc otherwise. -/
theorem round_spec (r : Ratio) (h : r.Invariant) :
    r.round = Except.ok
      (if r.denom ≤ 2 * |Int.tmod r.numer r.denom|
       then ratioOfInt (r.numer.tdiv r.denom + Int.sign r.numer)
       else r.trunc) := by
  obtain ⟨hb, hg⟩ := h
  have hgm : Int.gcd (Int.tmod r.numer r.denom) r.denom = 1 := by
    rw [gcd_tmod_left]
    exact hg
  have hmb := tmod_bounds r.numer r.denom hb
  have ht2 : Int.tmod r.denom 2 = r.denom % 2 := Int.tmod_eq_emod hb.le (by norm_num)
  have hd2 : Int.tdiv r.denom 2 = r.denom / 2 := Int.tdiv_eq_ediv hb.le (by norm_num)
  unfold Ratio.round
  simp only [Ratio.fract]
  rcases lt_or_le (Int.tmod r.numer r.denom) 0 with hm | hm
  · have hcond : ratLt ⟨Int.tmod r.numer r.denom, r.denom⟩ (ratioOfInt 0) = true :=
      (ratLt_zero_iff ⟨Int.tmod r.numer r.denom, r.denom⟩ hb).mpr hm
    have hsub := ratSub_zero_eval (Int.tmod r.numer r.denom) r.denom hb hgm
    have ha : r.numer < 0 := by
      by_contra hc
      push_neg at hc
      have := Int.tmod_nonneg r.denom hc
      omega
    have hsign : Int.sign r.numer = -1 := Int.sign_eq_neg_one_iff_neg.mpr ha
    have hgtf : ¬ (ratGt r (ratioOfInt 0) = true) := by
      rw [ratGt_zero_iff r hb]
      omega
    rw [if_pos hcond, hsub]
    dsimp only
    rw [abs_of_neg hm]
    have hhalf : (if Int.tmod r.denom 2 = 0 then
          decide (-Int.tmod r.numer r.denom ≥ r.denom.tdiv 2)
        else decide (-Int.tmod r.numer r.denom ≥ r.denom.tdiv 2 + 1)) =
        decide (r.denom ≤ 2 * -Int.tmod r.numer r.denom) := by
      rw [ht2, hd2]
      by_cases hp : r.denom % 2 = 0
      · rw [if_pos hp]
        apply decide_eq_decide.mpr
        omega
      · rw [if_neg hp]
        apply decide_eq_decide.mpr
        omega
    rw [hhalf]
    simp only [decide_eq_true_eq]
    by_cases hHL : r.denom ≤ 2 * -Int.tmod r.numer r.denom
    · rw [if_pos hHL, if_pos hHL, if_neg hgtf]
      have hstep : ratSub r.trunc (ratioOfInt 1) =
          Except.ok (ratioOfInt (r.numer.tdiv r.denom - 1)) := ratSub_int_one _
      rw [hstep, hsign]
      rw [show r.numer.tdiv r.denom + (-1 : Int) = r.numer.tdiv r.denom - 1 by ring]
    · rw [if_neg hHL, if_neg hHL]
  · have hcond : ¬ (ratLt ⟨Int.tmod r.numer r.denom, r.denom⟩ (ratioOfInt 0) = true) := by
      rw [ratLt_zero_iff ⟨Int.tmod r.numer r.denom, r.denom⟩ hb]
      show ¬ (Int.tmod r.numer r.denom < 0)
      omega
    rw [if_neg hcond]
    dsimp only
    rw [abs_of_nonneg hm]
    have hhalf : (if Int.tmod r.denom 2 = 0 then
          decide (Int.tmod r.numer r.denom ≥ r.denom.tdiv 2)
        else decide (Int.tmod r.numer r.denom ≥ r.denom.tdiv 2 + 1)) =
        decide (r.denom ≤ 2 * Int.tmod r.numer r.denom) := by
      rw [ht2, hd2]
      by_cases hp : r.denom % 2 = 0
      · rw [if_pos hp]
        apply decide_eq_decide.mpr
        omega
      · rw [if_neg hp]
        apply decide_eq_decide.mpr
        omega
    rw [hhalf]
    simp only [decide_eq_true_eq]
    by_cases hHL : r.denom ≤ 2 * Int.tmod r.numer r.denom
    · have ha : 0 < r.numer := by
        by_contra hc
        push_neg at hc
        have := tmod_nonpos r.numer r.denom hc
        omega
      have hsign : Int.sign r.numer = 1 := Int.sign_eq_one_iff_pos.mpr ha
      have hgtt : ratGt r (ratioOfInt 0) = true := (ratGt_zero_iff r hb).mpr ha
      rw [if_pos hHL, if_pos hHL, if_pos hgtt]
      have hstep : ratAdd r.trunc (ratioOfInt 1) =
          Except.ok (ratioOfInt (r.numer.tdiv r.denom + 1)) := ratAdd_int_one _
      rw [hstep, hsign]
    · rw [if_neg hHL, if_neg hHL]

/-- C5: round is round-half-away-from-zero: when the absolute fractional
part reaches one half, the result steps trunc one unit in the direction of
the sign of the value, else it is trunc; in particular one half rounds to
one and minus one half rounds to minus one. -/
theorem c5_round_half_away_from_zero (r : Ratio) (h : r.Invariant) :
    (∃ x, r.round = Except.ok x ∧
      x = if (1 : ℚ) / 2 ≤ |r.val - r.trunc.val|
          then ratioOfInt (r.numer.tdiv r.denom + Int.sign r.numer)
          else r.trunc) ∧
    Ratio.round ⟨1, 2⟩ = Except.ok (ratioOfInt 1) ∧
    Ratio.round ⟨-1, 2⟩ = Except.ok (ratioOfInt (-1)) := by
  have main : ∀ s : Ratio, s.Invariant → ∃ x, s.round = Except.ok x ∧
      x = if (1 : ℚ) / 2 ≤ |s.val - s.trunc.val|
          then ratioOfInt (s.numer.tdiv s.denom + Int.sign s.numer)
          else s.trunc := by
    intro s hs
    refine ⟨_, round_spec s hs, ?_⟩
    have hb := hs.1
    have hbq : (0 : ℚ) < (s.denom : ℚ) := by exact_mod_cast hb
    have hsub := val_sub_trunc s hb
    have hiff : (s.denom ≤ 2 * |Int.tmod s.numer s.denom|) ↔
        ((1 : ℚ) / 2 ≤ |s.val - s.trunc.val|) := by
      rw [hsub, abs_div, abs_of_pos hbq, div_le_div_iff (by norm_num) hbq, one_mul,
        ← Int.cast_abs]
      rw [show |Int.tmod s.numer s.denom| * (2 : ℚ) =
        ((|Int.tmod s.numer s.denom| * 2 : Int) : ℚ) by push_cast; ring]
      rw [Int.cast_le]
      rw [Int.abs_eq_natAbs]
      omega
    by_cases hc : s.denom ≤ 2 * |Int.tmod s.numer s.denom|
    · rw [if_pos hc, if_pos (hiff.mp hc)]
    · rw [if_neg hc, if_neg (fun hq => hc (hiff.mpr hq))]
  refine ⟨main r h, ?_, ?_⟩
  · obtain ⟨x, hx, he⟩ := main ⟨1, 2⟩ (by decide)
    rw [hx, he]
    have hcnd : (1 : ℚ) / 2 ≤ |Ratio.val ⟨1, 2⟩ - (Ratio.trunc ⟨1, 2⟩).val| := by
      rw [show Ratio.trunc ⟨1, 2⟩ = ratioOfInt 0 from by decide]
      unfold Ratio.val ratioOfInt
      rw [le_abs]
      left
      norm_num
    rw [if_pos hcnd]
    exact congrArg Except.ok (by decide)
  · obtain ⟨x, hx, he⟩ := main ⟨-1, 2⟩ (by decide)
    rw [hx, he]
    have hcnd : (1 : ℚ) / 2 ≤ |Ratio.val ⟨-1, 2⟩ - (Ratio.trunc ⟨-1, 2⟩).val| := by
      rw [show Ratio.trunc ⟨-1, 2⟩ = ratioOfInt 0 from by decide]
      unfold Ratio.val ratioOfInt
      rw [le_abs]
      right
      norm_num
    rw [if_pos hcnd]
    exact congrArg Except.ok (by decide)

theorem c5_witness :
    Ratio.Invariant ⟨1, 3⟩ ∧
    (Ratio.round ⟨1, 2⟩ = Except.ok (ratioOfInt 1) ∧
     Ratio.round ⟨-1, 2⟩ = Except.ok (ratioOfInt (-1))) :=
  ⟨by decide, (c5_round_half_away_from_zero ⟨1, 3⟩ (by decide)).2.1,
    (c5_round_half_away_from_zero ⟨1, 3⟩ (by decide)).2.2⟩

/-- C2: every value produced by a public operation satisfies the
invariant: both-argument construction, integer construction, the three
factories, negation, the five binary operators, the rounding family with
fract, and zero is canonically over denominator one. -/
theorem c2_invariant_everywhere :
    (∀ n d : Int, ∀ x, ratioMk n d = Except.ok x → x.Invariant) ∧
    (∀ u : Int, (ratioOfInt u).Invariant) ∧
    ratioZero.Invariant ∧ ratioOne.Invariant ∧ ratioPi.Invariant ∧
    (∀ r, r.Invariant → (ratNeg r).Invariant) ∧
    (∀ l r x, ratAdd l r = Except.ok x → x.Invariant) ∧
    (∀ l r x, ratSub l r = Except.ok x → x.Invariant) ∧
    (∀ l r x, ratMul l r = Except.ok x → x.Invariant) ∧
    (∀ l r x, ratDiv l r = Except.ok x → x.Invariant) ∧
    (∀ l r x, ratMod l r = Except.ok x → x.Invariant) ∧
    (∀ r : Ratio, r.trunc.Invariant ∧ r.floor.Invariant ∧ r.ceil.Invariant) ∧
    (∀ r : Ratio, r.Invariant → r.fract.Invariant) ∧
    (∀ r : Ratio, r.Invariant → ∀ x, r.round = Except.ok x → x.Invariant) ∧
    (∀ r : Ratio, r.Invariant → r.numer = 0 → r.denom = 1) := by
  refine ⟨mk_ok_invariant, invariant_ofInt, by decide, by decide, by decide,
    ?_, ?_, ?_, ?_, ?_, ?_, ?_, fract_invariant, ?_, ?_⟩
  · intro r hr
    refine ⟨hr.1, ?_⟩
    show Int.gcd (-r.numer) r.denom = 1
    rw [gcd_neg_left]
    exact hr.2
  · intro l r x hx
    exact mk_ok_invariant _ _ x hx
  · intro l r x hx
    exact mk_ok_invariant _ _ x hx
  · intro l r x hx
    exact mk_ok_invariant _ _ x hx
  · intro l r x hx
    exact mk_ok_invariant _ _ x hx
  · intro l r x hx
    exact mk_ok_invariant _ _ x hx
  · intro r
    refine ⟨invariant_ofInt _, ?_, ?_⟩
    · unfold Ratio.floor
      split
      · exact invariant_ofInt _
      · exact invariant_ofInt _
    · unfold Ratio.ceil
      split
      · exact invariant_ofInt _
      · exact invariant_ofInt _
  · intro r hr x hx
    rw [round_spec r hr] at hx
    injection hx with hx2
    subst hx2
    split
    · exact invariant_ofInt _
    · exact invariant_ofInt _
  · intro r hr h0
    obtain ⟨hb, hg⟩ := hr
    rw [h0, Int.gcd_zero_left] at hg
    omega

theorem c2_witness :
    Ratio.Invariant ⟨2, 3⟩ ∧ (ratNeg ⟨2, 3⟩).Invariant ∧
    Ratio.Invariant ⟨7, 2⟩ ∧ (Ratio.fract ⟨7, 2⟩).Invariant := by
  refine ⟨by decide, ?_, by decide, ?_⟩
  · exact c2_invariant_everywhere.2.2.2.2.2.1 ⟨2, 3⟩ (by decide)
  · exact c2_invariant_everywhere.2.2.2.2.2.2.2.2.2.2.2.2.1 ⟨7, 2⟩ (by decide)

theorem ratEq_refl (x : Ratio) : ratEq x x = true := by
  simp [ratEq]

/-- C4: on invariant-satisfying operands the four operators produce the
exact cross-multiplied fraction, reduced, hence the exact rational sum,
difference, product and quotient. -/
theorem c4_binary_arithmetic (l r : Ratio) (hl : l.Invariant) (hr : r.Invariant) :
    (∃ x, ratAdd l r = Except.ok x ∧ x.Invariant ∧
      x.val = ((l.numer * r.denom + l.denom * r.numer : Int) : ℚ) /
        ((l.denom * r.denom : Int) : ℚ) ∧
      x.val = l.val + r.val) ∧
    (∃ x, ratSub l r = Except.ok x ∧ x.Invariant ∧
      x.val = ((l.numer * r.denom - l.denom * r.numer : Int) : ℚ) /
        ((l.denom * r.denom : Int) : ℚ) ∧
      x.val = l.val - r.val) ∧
    (∃ x, ratMul l r = Except.ok x ∧ x.Invariant ∧
      x.val = ((l.numer * r.numer : Int) : ℚ) / ((l.denom * r.denom : Int) : ℚ) ∧
      x.val = l.val * r.val) ∧
    (r.numer ≠ 0 → ∃ x, ratDiv l r = Except.ok x ∧ x.Invariant ∧
      x.val = ((l.numer * r.denom : Int) : ℚ) / ((l.denom * r.numer : Int) : ℚ) ∧
      x.val = l.val / r.val) := by
  have hbl : l.denom ≠ 0 := by
    have := hl.1
    omega
  have hbr : r.denom ≠ 0 := by
    have := hr.1
    omega
  have hblq : (l.denom : ℚ) ≠ 0 := by exact_mod_cast hbl
  have hbrq : (r.denom : ℚ) ≠ 0 := by exact_mod_cast hbr
  refine ⟨?_, ?_, ?_, ?_⟩
  · obtain ⟨x, hx, hinv, hval, -⟩ :=
      ratioMk_spec (l.numer * r.denom + l.denom * r.numer) (l.denom * r.denom)
        (mul_ne_zero hbl hbr)
    refine ⟨x, hx, hinv, hval, ?_⟩
    rw [hval]
    unfold Ratio.val
    push_cast
    field_simp
    try ring
  · obtain ⟨x, hx, hinv, hval, -⟩ :=
      ratioMk_spec (l.numer * r.denom - l.denom * r.numer) (l.denom * r.denom)
        (mul_ne_zero hbl hbr)
    refine ⟨x, hx, hinv, hval, ?_⟩
    rw [hval]
    unfold Ratio.val
    push_cast
    field_simp
    try ring
  · obtain ⟨x, hx, hinv, hval, -⟩ :=
      ratioMk_spec (l.numer * r.numer) (l.denom * r.denom) (mul_ne_zero hbl hbr)
    refine ⟨x, hx, hinv, hval, ?_⟩
    rw [hval]
    unfold Ratio.val
    push_cast
    field_simp
    try ring
  · intro h0
    have h0q : (r.numer : ℚ) ≠ 0 := by exact_mod_cast h0
    obtain ⟨x, hx, hinv, hval, -⟩ :=
      ratioMk_spec (l.numer * r.denom) (l.denom * r.numer) (mul_ne_zero hbl h0)
    refine ⟨x, hx, hinv, hval, ?_⟩
    rw [hval]
    unfold Ratio.val
    push_cast
    field_simp
    try ring

theorem c4_witness :
    Ratio.Invariant ⟨1, 2⟩ ∧ Ratio.Invariant ⟨1, 3⟩ ∧
    (∃ x, ratAdd ⟨1, 2⟩ ⟨1, 3⟩ = Except.ok x ∧ x.Invariant ∧
      x.val = (((1 : Int) * 3 + 2 * 1 : Int) : ℚ) / (((2 : Int) * 3 : Int) : ℚ) ∧
      x.val = Ratio.val ⟨1, 2⟩ + Ratio.val ⟨1, 3⟩) :=
  ⟨by decide, by decide, (c4_binary_arithmetic ⟨1, 2⟩ ⟨1, 3⟩ (by decide) (by decide)).1⟩

/-- C7: the remainder operator produces the truncating remainder of the
cross products over the product of the denominators, reduced to lowest
terms, and the sign of the result numerator is the sign of that integral
remainder. -/
theorem c7_mod_semantics (l r : Ratio) (hl : l.Invariant) (hr : r.Invariant)
    (h0 : r.numer ≠ 0) :
    ∃ x, ratMod l r = Except.ok x ∧ x.Invariant ∧
      x.val = ((Int.tmod (l.numer * r.denom) (l.denom * r.numer) : Int) : ℚ) /
        ((l.denom * r.denom : Int) : ℚ) ∧
      Int.sign x.numer = Int.sign (Int.tmod (l.numer * r.denom) (l.denom * r.numer)) := by
  have hbl := hl.1
  have hbr := hr.1
  have hd : l.denom * r.denom ≠ 0 := mul_ne_zero (by omega) (by omega)
  obtain ⟨x, hx, hinv, hval, s, hs, hn, hdd⟩ :=
    ratioMk_spec (Int.tmod (l.numer * r.denom) (l.denom * r.numer)) (l.denom * r.denom) hd
  refine ⟨x, hx, hinv, hval, ?_⟩
  have hspos : 0 < s := by
    rcases lt_trichotomy s 0 with hss | hss | hss
    · exfalso
      have hD : 0 < l.denom * r.denom := mul_pos hbl hbr
      have hD2 : 0 < x.denom * s := by
        rw [← hdd]
        exact hD
      linarith [mul_neg_of_pos_of_neg hinv.1 hss]
    · exact absurd hss hs
    · exact hss
  rw [hn, Int.sign_mul, Int.sign_eq_one_iff_pos.mpr hspos, mul_one]

theorem c7_witness :
    Ratio.Invariant ⟨3, 2⟩ ∧ Ratio.Invariant ⟨1, 1⟩ ∧ ((⟨1, 1⟩ : Ratio).numer ≠ 0) ∧
    (∃ x, ratMod ⟨3, 2⟩ ⟨1, 1⟩ = Except.ok x ∧ x.Invariant ∧
      x.val = ((Int.tmod ((3 : Int) * 1) ((2 : Int) * 1) : Int) : ℚ) /
        (((2 : Int) * 1 : Int) : ℚ) ∧
      Int.sign x.numer = Int.sign (Int.tmod ((3 : Int) * 1) ((2 : Int) * 1))) :=
  ⟨by decide, by decide, by decide,
    c7_mod_semantics ⟨3, 2⟩ ⟨1, 1⟩ (by decide) (by decide) (by decide)⟩

/-- C8: adding the zero factory or multiplying by the one factory returns
the operand itself, subtracting a value from itself gives the zero
factory, and dividing a nonzero value by itself gives the one factory;
the operator == of the source agrees in each case. -/
theorem c8_arithmetic_identities (a : Ratio) (h : a.Invariant) :
    (∃ x, ratAdd a ratioZero = Except.ok x ∧ x = a ∧ ratEq x a = true) ∧
    (∃ x, ratMul a ratioOne = Except.ok x ∧ x = a ∧ ratEq x a = true) ∧
    (∃ x, ratSub a a = Except.ok x ∧ x = ratioZero ∧ ratEq x ratioZero = true) ∧
    (a.numer ≠ 0 →
      ∃ x, ratDiv a a = Except.ok x ∧ x = ratioOne ∧ ratEq x ratioOne = true) := by
  have hb : a.denom ≠ 0 := by
    have := h.1
    omega
  refine ⟨?_, ?_, ?_, ?_⟩
  · have e1 : ratAdd a ratioZero = ratioMk a.numer a.denom := by
      show ratioMk (a.numer * 1 + a.denom * 0) (a.denom * 1) = _
      norm_num
    refine ⟨a, ?_, rfl, ratEq_refl a⟩
    rw [e1, ratioMk_ok _ _ hb]
    exact congrArg Except.ok (reduce_invariant_id a h)
  · have e2 : ratMul a ratioOne = ratioMk a.numer a.denom := by
      show ratioMk (a.numer * 1) (a.denom * 1) = _
      norm_num
    refine ⟨a, ?_, rfl, ratEq_refl a⟩
    rw [e2, ratioMk_ok _ _ hb]
    exact congrArg Except.ok (reduce_invariant_id a h)
  · have e3 : ratSub a a = ratioMk 0 (a.denom * a.denom) := by
      show ratioMk (a.numer * a.denom - a.denom * a.numer) (a.denom * a.denom) = _
      rw [show a.numer * a.denom - a.denom * a.numer = (0 : Int) by ring]
    obtain ⟨x, hx, hinv, hval, s, hs, hn, hdd⟩ :=
      ratioMk_spec 0 (a.denom * a.denom) (mul_ne_zero hb hb)
    have hx0 : x.numer = 0 := by
      rcases mul_eq_zero.mp hn.symm with h1 | h1
      · exact h1
      · exact absurd h1 hs
    have hd1 : x.denom = 1 := by
      have hg := hinv.2
      rw [hx0, Int.gcd_zero_left] at hg
      have := hinv.1
      omega
    have hxz : x = ratioZero := by
      obtain ⟨n, d⟩ := x
      simp only at hx0 hd1
      rw [hx0, hd1]
      rfl
    refine ⟨x, ?_, hxz, by rw [hxz]; exact ratEq_refl _⟩
    rw [e3]
    exact hx
  · intro h0
    obtain ⟨x, hx, hinv, hval, s, hs, hn, hdd⟩ :=
      ratioMk_spec (a.numer * a.denom) (a.denom * a.numer) (mul_ne_zero hb h0)
    have heq : x.numer = x.denom := by
      have hcomm : x.numer * s = x.denom * s := by
        rw [← hn, ← hdd]
        ring
      exact mul_right_cancel₀ hs hcomm
    have hd1 : x.denom = 1 := by
      have hg := hinv.2
      rw [heq, Int.gcd_self] at hg
      have := hinv.1
      omega
    have hxo : x = ratioOne := by
      obtain ⟨n, d⟩ := x
      simp only at heq hd1
      rw [show n = 1 from by omega, hd1]
      rfl
    exact ⟨x, hx, hxo, by rw [hxo]; exact ratEq_refl _⟩

theorem c8_witness :
    Ratio.Invariant ⟨2, 3⟩ ∧
    (∃ x, ratAdd ⟨2, 3⟩ ratioZero = Except.ok x ∧ x = ⟨2, 3⟩ ∧ ratEq x ⟨2, 3⟩ = true) ∧
    ((⟨2, 3⟩ : Ratio).numer ≠ 0 →
      ∃ x, ratDiv ⟨2, 3⟩ ⟨2, 3⟩ = Except.ok x ∧ x = ratioOne ∧ ratEq x ratioOne = true) :=
  ⟨by decide, (c8_arithmetic_identities ⟨2, 3⟩ (by decide)).1,
    (c8_arithmetic_identities ⟨2, 3⟩ (by decide)).2.2.2⟩

end RationalSpec
